import Mathlib

/-
Verification of the geobeat spatial-statistics engine
(`src/analysis/gdi_standalone.py` and `src/analysis/spatial_metrics.py`).

The numeric code is embedded shallowly: projected coordinates are rational
pairs, exact rational arithmetic replaces floating point wherever the Python
code computes with rationals-representable data (distance comparisons, grid
shares, weights), and `Real.sqrt`, `Real.log`, `Real.exp`, `Real.logb` stand
for the corresponding NumPy operations.  Places where the Python code hits a
floating-point singularity (`x / 0.0 = inf`, `inf * 0.0 = nan`,
`1 / (inf + 1) = 0.0`) or a `ZeroDivisionError` on integer division are
modelled explicitly by outcome types whose branch conditions mirror the
values the float computation takes, as documented at each definition.
External collaborators (the Mollweide projection `to_crs("ESRI:54009")` and
the H3 binning function `h3.latlng_to_cell`) are taken as arbitrary function
parameters: every theorem quantifies over them, since no claim depends on
their internals, only on their determinism.
-/

namespace GeoBeat

/-- A projected planar point in metres (the rows of
`np.column_stack([gdf_proj.geometry.x, gdf_proj.geometry.y])`). -/
abbrev Pt : Type := ℚ × ℚ

/-- Squared Euclidean distance between two planar points.  All distance
comparisons of the source (`scipy.spatial.cKDTree` queries) are Euclidean;
`d ≤ r` is modelled as `d² ≤ r²` so the comparison stays rational. -/
def sqDist (p q : Pt) : ℚ :=
  (p.1 - q.1) ^ 2 + (p.2 - q.2) ^ 2

lemma sqDist_nonneg (p q : Pt) : 0 ≤ sqDist p q := by
  have h1 : (0 : ℚ) ≤ (p.1 - q.1) ^ 2 := sq_nonneg _
  have h2 : (0 : ℚ) ≤ (p.2 - q.2) ^ 2 := sq_nonneg _
  unfold sqDist
  linarith

lemma sqDist_self (p : Pt) : sqDist p p = 0 := by
  unfold sqDist
  ring

/-! ### Local density (`_get_local_density` in `gdi_standalone.py`)

`tree.query(coords, k=6)` returns, for each point, the six smallest
Euclidean distances to points of the set (the point itself included at
distance 0), in ascending order, padded with `inf` when the set has fewer
than six points; `distances[:, 5]` is the entry of index 5.  Sorting squared
distances gives the same ascending order as sorting distances, so the query
is modelled by sorting the list of squared distances and taking index 5;
`none` stands for the `inf` padding. -/

/-- Ascending insertion sort over rationals (the order `cKDTree.query`
returns its distances in). -/
def sortQ (l : List ℚ) : List ℚ :=
  l.insertionSort (· ≤ ·)

lemma sortQ_perm (l : List ℚ) : (sortQ l).Perm l :=
  List.perm_insertionSort _ l

lemma sortQ_length (l : List ℚ) : (sortQ l).length = l.length :=
  (sortQ_perm l).length_eq

lemma mem_sortQ {a : ℚ} {l : List ℚ} (h : a ∈ sortQ l) : a ∈ l :=
  (sortQ_perm l).mem_iff.mp h

lemma sortQ_sorted (l : List ℚ) : (sortQ l).Sorted (· ≤ ·) :=
  List.sorted_insertionSort _ l

/-- Squared distances from `p` to every point of the set, self included. -/
def sqDistList (coords : List Pt) (p : Pt) : List ℚ :=
  coords.map (fun q => sqDist p q)

/-- Squared distance from `p` to its 5th-nearest other point of `coords`
(index 5 of the ascending self-inclusive distance list); `none` models the
`inf` scipy pads with when the set has fewer than six points. -/
def sqDist5 (coords : List Pt) (p : Pt) : Option ℚ :=
  (sortQ (sqDistList coords p)).get? 5

/-- Default attribute of `_get_local_density`:
`density = 1.0 / (k_distance + 1)`.  When `k_distance` is the `inf` padding
the float computation yields `1/(inf + 1) = 0.0`, modelled by the `none`
branch. -/
noncomputable def localDensity (coords : List Pt) (p : Pt) : ℝ :=
  (sqDist5 coords p).elim 0 (fun s => 1 / (Real.sqrt s + 1))

lemma sqDist5_of_small {coords : List Pt} (p : Pt)
    (h : coords.length ≤ 5) : sqDist5 coords p = none := by
  unfold sqDist5
  rw [List.get?_eq_none]
  rw [sortQ_length]
  simpa [sqDistList] using h

lemma localDensity_of_small {coords : List Pt} (p : Pt)
    (h : coords.length ≤ 5) : localDensity coords p = 0 := by
  unfold localDensity
  rw [sqDist5_of_small p h]
  rfl

/-! ### Distance-band spatial weights (`_calculate_morans_i`, lines 72–86)

`tree.query_pairs(threshold_m)` yields every unordered pair at Euclidean
distance at most `threshold_m`; the loop writes a symmetric binary matrix
with zero diagonal.  Row standardisation replaces each zero row sum by 1
(`row_sums[row_sums == 0] = 1`) before dividing. -/

/-- Binary distance-band weight `W[i, j]`. -/
def W (coords : List Pt) (tm : ℚ) (i j : Fin coords.length) : ℚ :=
  if i ≠ j ∧ sqDist (coords.get i) (coords.get j) ≤ tm ^ 2 then 1 else 0

/-- `row_sums = W.sum(axis=1)`. -/
def rowSum (coords : List Pt) (tm : ℚ) (i : Fin coords.length) : ℚ :=
  ∑ j, W coords tm i j

/-- The guarded row sum after `row_sums[row_sums == 0] = 1`. -/
def rowSumG (coords : List Pt) (tm : ℚ) (i : Fin coords.length) : ℚ :=
  if rowSum coords tm i = 0 then 1 else rowSum coords tm i

/-- Row-standardised weight `W = W / row_sums[:, np.newaxis]`. -/
def Wstd (coords : List Pt) (tm : ℚ) (i j : Fin coords.length) : ℚ :=
  W coords tm i j / rowSumG coords tm i

/-- `W.sum()` of the standardised matrix (the `S0` of the statistic). -/
def wTotal (coords : List Pt) (tm : ℚ) : ℚ :=
  ∑ i, ∑ j, Wstd coords tm i j

lemma W_nonneg (coords : List Pt) (tm : ℚ) (i j : Fin coords.length) :
    0 ≤ W coords tm i j := by
  unfold W
  split <;> norm_num

lemma rowSum_nonneg (coords : List Pt) (tm : ℚ) (i : Fin coords.length) :
    0 ≤ rowSum coords tm i :=
  Finset.sum_nonneg fun j _ => W_nonneg coords tm i j

lemma rowSumG_pos (coords : List Pt) (tm : ℚ) (i : Fin coords.length) :
    0 < rowSumG coords tm i := by
  unfold rowSumG
  split
  · norm_num
  · exact lt_of_le_of_ne (rowSum_nonneg coords tm i) (Ne.symm (by assumption))

/-! ### Moran's I (`_calculate_morans_i`, lines 88–104)

The attribute is the local density; `x = local_density - local_density.mean()`;
`numerator = np.sum(W * np.outer(x, x))`; `denominator = np.sum(x**2)`;
`I = (n / W.sum()) * (numerator / denominator) if denominator > 0 else 0`.
When no pair lies within the threshold the standardised `W` is all zero, so
`W.sum() = 0.0` and (for positive denominator) the float computation gives
`I = inf * 0.0 = nan` — a normal return, not an exception.  The line
`E_I = -1 / (n - 1)` divides Python integers and raises `ZeroDivisionError`
when `n = 1`; the subsequent z-score and p-value are deterministic functions
of `I` and `n` that no claim refers to, so the outcome carries `I` alone. -/

noncomputable def densityMean (coords : List Pt) : ℝ :=
  (coords.map (localDensity coords)).sum / coords.length

/-- Centred attribute `x_i = density_i - mean`. -/
noncomputable def xDev (coords : List Pt) (p : Pt) : ℝ :=
  localDensity coords p - densityMean coords

/-- `denominator = np.sum(x**2)`. -/
noncomputable def moransDenominator (coords : List Pt) : ℝ :=
  (coords.map (fun p => xDev coords p ^ 2)).sum

/-- `numerator = np.sum(W * np.outer(x, x))` over the standardised weights. -/
noncomputable def moransNumerator (coords : List Pt) (tm : ℚ) : ℝ :=
  ∑ i, ∑ j, (Wstd coords tm i j : ℝ) *
    xDev coords (coords.get i) * xDev coords (coords.get j)

/-- Outcome of one call of the Python function `_calculate_morans_i`:
a finite statistic, a NaN statistic (no neighbour pair but positive
attribute variance), or the `ZeroDivisionError` from `E_I = -1 / (n - 1)`
at `n = 1`. -/
inductive MoransOutcome where
  | ok (I : ℝ)
  | okNaN
  | zeroDivisionError

open Classical in
/-- One call of `_calculate_morans_i`.  The Python code computes `I` first
(float arithmetic, which never raises) and only afterwards raises
`ZeroDivisionError` at `n = 1`; testing `n = 1` first yields the same
outcome for every input. -/
noncomputable def moransIRun (coords : List Pt) (thresholdKm : ℚ) : MoransOutcome :=
  if coords.length = 1 then MoransOutcome.zeroDivisionError
  else if 0 < moransDenominator coords then
    if wTotal coords (thresholdKm * 1000) = 0 then MoransOutcome.okNaN
    else MoransOutcome.ok ((coords.length : ℝ) / (wTotal coords (thresholdKm * 1000) : ℝ) *
      (moransNumerator coords (thresholdKm * 1000) / moransDenominator coords))
  else MoransOutcome.ok 0

lemma moransDenominator_of_constant {coords : List Pt} {d : ℝ}
    (h : ∀ p ∈ coords, localDensity coords p = d) :
    moransDenominator coords = 0 := by
  have hsum : (coords.map (localDensity coords)).sum = coords.length • d := by
    have := List.sum_eq_card_nsmul (coords.map (localDensity coords)) d
      (by
        intro x hx
        rcases List.mem_map.mp hx with ⟨p, hp, rfl⟩
        exact h p hp)
    simpa using this
  have hmean : densityMean coords = d ∨ coords.length = 0 := by
    rcases Nat.eq_zero_or_pos coords.length with h0 | hpos
    · exact Or.inr h0
    · left
      unfold densityMean
      rw [hsum, nsmul_eq_mul]
      have : (coords.length : ℝ) ≠ 0 := by positivity
      field_simp
  unfold moransDenominator
  apply List.sum_eq_zero
  intro x hx
  rcases List.mem_map.mp hx with ⟨p, hp, rfl⟩
  rcases hmean with hm | h0
  · unfold xDev
    rw [h p hp, hm]
    ring
  · exact absurd (List.length_eq_zero.mp h0) (List.ne_nil_of_mem hp)

lemma moransIRun_ok_zero {coords : List Pt} (t : ℚ)
    (h1 : coords.length ≠ 1) (hd : moransDenominator coords = 0) :
    moransIRun coords t = MoransOutcome.ok 0 := by
  unfold moransIRun
  rw [if_neg h1, if_neg (by rw [hd]; exact lt_irrefl 0)]

/-- With between 2 and 5 points every local density is the zero produced by
the `inf` query padding, hence the attribute variance is zero and the
function returns `I = 0`. -/
lemma moransIRun_of_small {coords : List Pt} (t : ℚ)
    (h2 : 2 ≤ coords.length) (h5 : coords.length ≤ 5) :
    moransIRun coords t = MoransOutcome.ok 0 := by
  apply moransIRun_ok_zero t (by omega)
  exact moransDenominator_of_constant (d := 0)
    (fun p _ => localDensity_of_small p h5)

/-! ### Grid concentration and diversity
(`_calculate_spatial_hhi` and `_calculate_enl` in `gdi_standalone.py`)

Each row is binned by `h3.latlng_to_cell(lat, lon, resolution)`; the binning
function is external and deterministic, so it enters the embedding as an
arbitrary function `h3cell : Pt → ℕ` (cell keys as naturals) applied to each
point.  `value_counts` gives the multiset of per-cell counts, modelled by
`List.count` over the distinct cells `cells.toFinset`. -/

/-- Share of one cell: `shares = cell_counts / total_nodes`. -/
def shareQ (cells : List ℕ) (c : ℕ) : ℚ :=
  (cells.count c : ℚ) / (cells.length : ℚ)

/-- Spatial HHI `(shares**2).sum()`. -/
def hhiQ (cells : List ℕ) : ℚ :=
  ∑ c in cells.toFinset, shareQ cells c ^ 2

/-- `num_cells = len(cell_counts)`: number of occupied cells. -/
def numCells (cells : List ℕ) : ℕ :=
  cells.toFinset.card

/-- Shannon entropy `-np.sum(probabilities * np.log(probabilities))`. -/
noncomputable def shannonEntropy (cells : List ℕ) : ℝ :=
  -∑ c in cells.toFinset, (shareQ cells c : ℝ) * Real.log (shareQ cells c)

/-- Effective number of locations `enl = np.exp(entropy)`. -/
noncomputable def enl (cells : List ℕ) : ℝ :=
  Real.exp (shannonEntropy cells)

/-- `_calculate_spatial_hhi(df, resolution)` for a binning function. -/
def spatialHHI (h3cell : Pt → ℕ) (pts : List Pt) : ℚ :=
  hhiQ (pts.map h3cell)

/-- `_calculate_enl(df, resolution, num_cells)` for a binning function. -/
noncomputable def enlOf (h3cell : Pt → ℕ) (pts : List Pt) : ℝ :=
  enl (pts.map h3cell)

lemma shareQ_nonneg (cells : List ℕ) (c : ℕ) : 0 ≤ shareQ cells c := by
  unfold shareQ
  positivity

lemma length_pos_of_ne_nil {cells : List ℕ} (h : cells ≠ []) :
    (0 : ℚ) < (cells.length : ℚ) := by
  exact_mod_cast List.length_pos.mpr h

lemma shareQ_le_one {cells : List ℕ} (h : cells ≠ []) (c : ℕ) :
    shareQ cells c ≤ 1 := by
  unfold shareQ
  rw [div_le_one (length_pos_of_ne_nil h)]
  exact_mod_cast List.count_le_length c cells

lemma shareQ_pos {cells : List ℕ} {c : ℕ} (hc : c ∈ cells.toFinset) :
    0 < shareQ cells c := by
  have hm : c ∈ cells := List.mem_toFinset.mp hc
  have hne : cells ≠ [] := List.ne_nil_of_mem hm
  unfold shareQ
  apply div_pos _ (length_pos_of_ne_nil hne)
  exact_mod_cast List.count_pos_iff.mpr hm

lemma toFinset_sum_count (cells : List ℕ) :
    ∑ c in cells.toFinset, cells.count c = cells.length := by
  simpa using Multiset.toFinset_sum_count_eq (cells : Multiset ℕ)

lemma sum_shareQ {cells : List ℕ} (h : cells ≠ []) :
    ∑ c in cells.toFinset, shareQ cells c = 1 := by
  unfold shareQ
  rw [← Finset.sum_div]
  have hcounts : ∑ c in cells.toFinset, (cells.count c : ℚ) = (cells.length : ℚ) := by
    exact_mod_cast congrArg (Nat.cast (R := ℚ)) (toFinset_sum_count cells)
  rw [hcounts, div_self (length_pos_of_ne_nil h).ne']

lemma numCells_pos {cells : List ℕ} (h : cells ≠ []) : 0 < numCells cells := by
  unfold numCells
  apply Finset.card_pos.mpr
  obtain ⟨a, ha⟩ := List.exists_mem_of_ne_nil cells h
  exact ⟨a, List.mem_toFinset.mpr ha⟩

lemma hhiQ_nonneg (cells : List ℕ) : 0 ≤ hhiQ cells :=
  Finset.sum_nonneg fun c _ => sq_nonneg _

lemma hhiQ_le_one {cells : List ℕ} (h : cells ≠ []) : hhiQ cells ≤ 1 := by
  unfold hhiQ
  calc ∑ c in cells.toFinset, shareQ cells c ^ 2
      ≤ ∑ c in cells.toFinset, shareQ cells c := by
        apply Finset.sum_le_sum
        intro c _
        nlinarith [shareQ_nonneg cells c, shareQ_le_one h c]
    _ = 1 := sum_shareQ h

lemma one_div_numCells_le_hhiQ {cells : List ℕ} (h : cells ≠ []) :
    1 / (numCells cells : ℚ) ≤ hhiQ cells := by
  set k : ℚ := (numCells cells : ℚ) with hk
  have hkpos : 0 < k := by rw [hk]; exact_mod_cast numCells_pos h
  have h0 : 0 ≤ ∑ c in cells.toFinset, (shareQ cells c - 1 / k) ^ 2 :=
    Finset.sum_nonneg fun c _ => sq_nonneg _
  have hexp : ∑ c in cells.toFinset, (shareQ cells c - 1 / k) ^ 2
      = hhiQ cells - 1 / k := by
    have hterm : ∀ c ∈ cells.toFinset,
        (shareQ cells c - 1 / k) ^ 2
          = shareQ cells c ^ 2 - 2 * (1 / k) * shareQ cells c + (1 / k) ^ 2 :=
      fun c _ => by ring
    rw [Finset.sum_congr rfl hterm, Finset.sum_add_distrib, Finset.sum_sub_distrib,
      ← Finset.mul_sum, sum_shareQ h, Finset.sum_const]
    have hcard : ((cells.toFinset.card : ℚ)) = k := by
      rw [hk]
      norm_cast
    rw [nsmul_eq_mul, hcard]
    unfold hhiQ
    field_simp
    ring
  linarith

lemma shannonEntropy_nonneg {cells : List ℕ} (h : cells ≠ []) :
    0 ≤ shannonEntropy cells := by
  unfold shannonEntropy
  rw [neg_nonneg]
  apply Finset.sum_nonpos
  intro c hc
  apply mul_nonpos_of_nonneg_of_nonpos
  · exact_mod_cast shareQ_nonneg cells c
  · apply Real.log_nonpos
    · exact_mod_cast shareQ_nonneg cells c
    · exact_mod_cast shareQ_le_one h c

lemma shannonEntropy_le_log {cells : List ℕ} (h : cells ≠ []) :
    shannonEntropy cells ≤ Real.log (numCells cells) := by
  set k : ℝ := (numCells cells : ℝ) with hkdef
  have hkpos : 0 < k := by rw [hkdef]; exact_mod_cast numCells_pos h
  have hsumshares : ∑ c in cells.toFinset, ((shareQ cells c : ℝ)) = 1 := by
    exact_mod_cast congrArg (Rat.cast (K := ℝ)) (sum_shareQ h)
  have hterm : ∀ c ∈ cells.toFinset,
      -((shareQ cells c : ℝ) * Real.log (shareQ cells c))
        ≤ 1 / k - (shareQ cells c : ℝ) + (shareQ cells c : ℝ) * Real.log k := by
    intro c hc
    set p : ℝ := (shareQ cells c : ℝ) with hpdef
    have hp : 0 < p := by rw [hpdef]; exact_mod_cast shareQ_pos hc
    have hlog : Real.log (1 / (k * p)) ≤ 1 / (k * p) - 1 :=
      Real.log_le_sub_one_of_pos (by positivity)
    have hsplit : Real.log (1 / p) = Real.log (1 / (k * p)) + Real.log k := by
      rw [← Real.log_mul (by positivity) hkpos.ne']
      congr 1
      field_simp
    have hneg : -(p * Real.log p) = p * Real.log (1 / p) := by
      rw [one_div, Real.log_inv]
      ring
    rw [hneg, hsplit, mul_add]
    have hmul : p * Real.log (1 / (k * p)) ≤ p * (1 / (k * p) - 1) :=
      mul_le_mul_of_nonneg_left hlog hp.le
    have hid : p * (1 / (k * p) - 1) = 1 / k - p := by
      field_simp
      ring
    linarith
  have hsum := Finset.sum_le_sum hterm
  have hlhs : shannonEntropy cells
      = ∑ c in cells.toFinset, -((shareQ cells c : ℝ) * Real.log (shareQ cells c)) := by
    unfold shannonEntropy
    rw [Finset.sum_neg_distrib]
  have hrhs : ∑ c in cells.toFinset,
      (1 / k - (shareQ cells c : ℝ) + (shareQ cells c : ℝ) * Real.log k)
        = Real.log k := by
    rw [Finset.sum_add_distrib, Finset.sum_sub_distrib, ← Finset.sum_mul,
      hsumshares, Finset.sum_const, nsmul_eq_mul]
    have hcard : ((cells.toFinset.card : ℝ)) = k := by
      rw [hkdef]
      norm_cast
    rw [hcard]
    field_simp
  rw [hlhs, hkdef] at *
  linarith [hsum, hrhs.le, hrhs.ge]

lemma enl_pos (cells : List ℕ) : 0 < enl cells :=
  Real.exp_pos _

lemma one_le_enl {cells : List ℕ} (h : cells ≠ []) : 1 ≤ enl cells := by
  unfold enl
  calc (1 : ℝ) = Real.exp 0 := Real.exp_zero.symm
    _ ≤ Real.exp (shannonEntropy cells) :=
        Real.exp_le_exp.mpr (shannonEntropy_nonneg h)

lemma enl_le_numCells {cells : List ℕ} (h : cells ≠ []) :
    enl cells ≤ (numCells cells : ℝ) := by
  unfold enl
  calc Real.exp (shannonEntropy cells)
      ≤ Real.exp (Real.log (numCells cells)) :=
        Real.exp_le_exp.mpr (shannonEntropy_le_log h)
    _ = (numCells cells : ℝ) :=
        Real.exp_log (by exact_mod_cast numCells_pos h)

/-! Uniform distributions: every occupied cell holds the same count `m`. -/

lemma length_of_uniform {cells : List ℕ} {m : ℕ}
    (hu : ∀ c ∈ cells.toFinset, cells.count c = m) :
    cells.length = numCells cells * m := by
  rw [← toFinset_sum_count cells, Finset.sum_congr rfl hu, Finset.sum_const,
    smul_eq_mul]
  rfl

lemma shareQ_of_uniform {cells : List ℕ} {m : ℕ} (hm : 0 < m)
    (hu : ∀ c ∈ cells.toFinset, cells.count c = m)
    {c : ℕ} (hc : c ∈ cells.toFinset) :
    shareQ cells c = 1 / (numCells cells : ℚ) := by
  have hne : cells ≠ [] := List.ne_nil_of_mem (List.mem_toFinset.mp hc)
  have hkpos : (0 : ℚ) < (numCells cells : ℚ) := by exact_mod_cast numCells_pos hne
  have hmpos : (0 : ℚ) < (m : ℚ) := by exact_mod_cast hm
  unfold shareQ
  rw [hu c hc, length_of_uniform hu]
  push_cast
  field_simp
  ring

lemma hhiQ_of_uniform {cells : List ℕ} {m : ℕ} (hne : cells ≠ []) (hm : 0 < m)
    (hu : ∀ c ∈ cells.toFinset, cells.count c = m) :
    hhiQ cells = 1 / (numCells cells : ℚ) := by
  have hkpos : (0 : ℚ) < (numCells cells : ℚ) := by exact_mod_cast numCells_pos hne
  unfold hhiQ
  rw [Finset.sum_congr rfl (fun c hc => by rw [shareQ_of_uniform hm hu hc]),
    Finset.sum_const, nsmul_eq_mul]
  have hcard : ((cells.toFinset.card : ℚ)) = (numCells cells : ℚ) := by
    unfold numCells
    norm_cast
  rw [hcard]
  field_simp
  ring

lemma shannonEntropy_of_uniform {cells : List ℕ} {m : ℕ} (hne : cells ≠ [])
    (hm : 0 < m) (hu : ∀ c ∈ cells.toFinset, cells.count c = m) :
    shannonEntropy cells = Real.log (numCells cells) := by
  have hkpos : (0 : ℝ) < (numCells cells : ℝ) := by exact_mod_cast numCells_pos hne
  unfold shannonEntropy
  rw [Finset.sum_congr rfl (fun c hc => by rw [shareQ_of_uniform hm hu hc])]
  push_cast
  rw [Finset.sum_const, nsmul_eq_mul]
  have hcard : ((cells.toFinset.card : ℝ)) = (numCells cells : ℝ) := by
    unfold numCells
    norm_cast
  rw [hcard, one_div, Real.log_inv]
  field_simp

lemma enl_of_uniform {cells : List ℕ} {m : ℕ} (hne : cells ≠ [])
    (hm : 0 < m) (hu : ∀ c ∈ cells.toFinset, cells.count c = m) :
    enl cells = (numCells cells : ℝ) := by
  unfold enl
  rw [shannonEntropy_of_uniform hne hm hu]
  exact Real.exp_log (by exact_mod_cast numCells_pos hne)

/-! ### Average nearest neighbour
(`SpatialAnalyzer.average_nearest_neighbor` in `spatial_metrics.py`)

`tree.query(coords, k=2)` gives each point's distance to its nearest other
point (`inf` padding when the set is a singleton); `total_bounds` gives the
bounding box; `density = n / area`; `expected = 0.5 / sqrt(density)`;
`nn_index = observed / expected`.  With a zero-area box the float pipeline
produces `density = inf`, `expected = 0.0`, and then `observed / 0.0`, which
is `nan` when the observed mean is `0.0` (all points coincident) and `inf`
when it is positive or infinite — a silent return either way, since the
function raises nothing. -/

/-- Bounding-box area `(bounds[2]-bounds[0]) * (bounds[3]-bounds[1])` of
`gdf_projected.total_bounds`.  Only used on non-empty point sets. -/
def bboxArea (coords : List Pt) : ℚ :=
  (((coords.map Prod.fst).max?.getD 0) - ((coords.map Prod.fst).min?.getD 0)) *
    (((coords.map Prod.snd).max?.getD 0) - ((coords.map Prod.snd).min?.getD 0))

/-- Squared distance from point `i` to its nearest other point; `none`
models the `inf` padding of a `k=2` query on a singleton set. -/
def nnSqDist (coords : List Pt) (i : Fin coords.length) : Option ℚ :=
  (((List.finRange coords.length).filter (fun j => j ≠ i)).map
    (fun j => sqDist (coords.get i) (coords.get j))).min?

/-- Observed mean nearest-neighbour distance `nearest_distances.mean()` for
a set of at least two points (every `nnSqDist` is then a `some`; the
`getD 0` default is never taken). -/
noncomputable def observedMean (coords : List Pt) : ℝ :=
  (((List.finRange coords.length).map
    (fun i => Real.sqrt (((nnSqDist coords i).getD 0 : ℚ)))).sum) / coords.length

/-- The `nn_index` a call of `average_nearest_neighbor` reports: a finite
float, `inf`, or `nan`.  The function has no raise path. -/
inductive AnnIndex where
  | val (r : ℝ)
  | inf
  | nan

/-- One call of `average_nearest_neighbor`, reduced to the reported
`nn_index` (the z-score and p-value are functions of it and `n` that no
claim refers to).  For a singleton the observed mean is the `inf` padding
and the expected mean is 0, so `inf / 0.0 = inf`.  For a zero-area box the
expected mean is `0.5 / sqrt(inf) = 0.0` and the division yields `nan`
exactly when every nearest-neighbour distance is zero (observed mean `0.0`,
the `0.0 / 0.0` case) and `inf` otherwise. -/
noncomputable def annNNIndexRun (coords : List Pt) : AnnIndex :=
  if coords.length ≤ 1 then AnnIndex.inf
  else if bboxArea coords = 0 then
    (if ∀ i, nnSqDist coords i = some 0 then AnnIndex.nan else AnnIndex.inf)
  else
    AnnIndex.val (observedMean coords /
      (1 / 2 / Real.sqrt ((coords.length : ℝ) / (bboxArea coords : ℝ))))

lemma getD_max_of_const {l : List ℚ} {a : ℚ} (hne : l ≠ [])
    (h : ∀ x ∈ l, x = a) : l.max?.getD 0 = a := by
  rcases hmax : l.max? with _ | b
  · exact absurd (List.max?_eq_none_iff.mp hmax) hne
  · exact h b (List.max?_mem (fun x y => max_choice x y) hmax)

lemma getD_min_of_const {l : List ℚ} {a : ℚ} (hne : l ≠ [])
    (h : ∀ x ∈ l, x = a) : l.min?.getD 0 = a := by
  rcases hmin : l.min? with _ | b
  · exact absurd (List.min?_eq_none_iff.mp hmin) hne
  · exact h b (List.min?_mem (fun x y => min_choice x y) hmin)

lemma bboxArea_of_const {coords : List Pt} {c : Pt} (hne : coords ≠ [])
    (h : ∀ p ∈ coords, p = c) : bboxArea coords = 0 := by
  have hx : ∀ x ∈ coords.map Prod.fst, x = c.1 := by
    intro x hx
    rcases List.mem_map.mp hx with ⟨p, hp, rfl⟩
    rw [h p hp]
  have hmapne : coords.map Prod.fst ≠ [] := by
    simpa using hne
  unfold bboxArea
  rw [getD_max_of_const hmapne hx, getD_min_of_const hmapne hx]
  ring

lemma nnSqDist_of_const {coords : List Pt} {c : Pt} (h2 : 2 ≤ coords.length)
    (h : ∀ p ∈ coords, p = c) (i : Fin coords.length) :
    nnSqDist coords i = some 0 := by
  unfold nnSqDist
  set l := ((List.finRange coords.length).filter (fun j => j ≠ i)).map
    (fun j => sqDist (coords.get i) (coords.get j)) with hl
  have hlne : l ≠ [] := by
    have hj : ∃ j : Fin coords.length, j ≠ i := by
      by_cases hi0 : (i : ℕ) = 0
      · exact ⟨⟨1, by omega⟩, by
          intro hcon
          have := congrArg Fin.val hcon
          simp [hi0] at this⟩
      · exact ⟨⟨0, by omega⟩, by
          intro hcon
          have := congrArg Fin.val hcon
          simp at this
          exact hi0 this.symm⟩
    rcases hj with ⟨j, hj⟩
    have : sqDist (coords.get i) (coords.get j) ∈ l := by
      rw [hl]
      exact List.mem_map_of_mem _
        (List.mem_filter.mpr ⟨List.mem_finRange j, by simpa using hj⟩)
    exact List.ne_nil_of_mem this
  have hzero : ∀ x ∈ l, x = 0 := by
    intro x hx
    rw [hl] at hx
    rcases List.mem_map.mp hx with ⟨j, _, rfl⟩
    have hig : coords.get i = c := h _ (coords.get_mem i.1 i.2)
    have hjg : coords.get j = c := h _ (coords.get_mem j.1 j.2)
    rw [hig, hjg, sqDist_self]
  rcases hmin : l.min? with _ | b
  · exact absurd (List.min?_eq_none_iff.mp hmin) hlne
  · rw [hzero b (List.min?_mem (fun x y => min_choice x y) hmin)]

/-! ### Composite scores (`gdi_standalone.py`)

`calculate_jdi` / `calculate_ihi` work on the country / organisation column
(categories as naturals); `value_counts().iloc[0]` is the largest count.
The reported scores are the values below rounded to one decimal for
display; rounding to the 0.1 grid moves a value by at most 0.05 and the
bounds proved here are grid points, so the statements carry over to the
rounded values verbatim and the embedding keeps the unrounded numbers. -/

/-- Largest category count, `value_counts().iloc[0]` (0 on an empty frame,
matching the `if len(country_counts) > 0 else 0` guard). -/
def topCount (l : List ℕ) : ℕ :=
  l.toFinset.sup (fun c => l.count c)

/-- Top-category share `country_counts.iloc[0] / total_nodes`. -/
def topShare (l : List ℕ) : ℚ :=
  (topCount l : ℚ) / (l.length : ℚ)

/-- `calculate_jdi`:
`100 * (0.3*(1 - hhi) + 0.35*min(1, log10(k)/2.0) - 0.35*max(0, (top - 0.15)/0.35))`. -/
noncomputable def jdiScore (countries : List ℕ) : ℝ :=
  100 * (0.3 * (1 - (hhiQ countries : ℝ))
    + 0.35 * min 1 (Real.logb 10 (numCells countries) / 2)
    - 0.35 * max 0 (((topShare countries : ℝ) - 0.15) / 0.35))

/-- `calculate_ihi`:
`100 * (0.3*(1 - hhi) + 0.35*min(1, log10(k)/3.5) - 0.35*max(0, (top - 0.03)/0.17))`. -/
noncomputable def ihiScore (orgs : List ℕ) : ℝ :=
  100 * (0.3 * (1 - (hhiQ orgs : ℝ))
    + 0.35 * min 1 (Real.logb 10 (numCells orgs) / 3.5)
    - 0.35 * max 0 (((topShare orgs : ℝ) - 0.03) / 0.17))

/-- Network size score of `calculate_gdi`:
`100 * min(1.0, (total_nodes / 50000) ** 0.5)`. -/
noncomputable def networkSizeScore (n : ℕ) : ℝ :=
  100 * min 1 (Real.sqrt ((n : ℝ) / 50000))

/-- `morans_norm = max(0, min(1, (1 - morans_i)))` of `calculate_pdi`. -/
noncomputable def moransNormOf (I : ℝ) : ℝ :=
  max 0 (min 1 (1 - I))

/-- The composite blend of `calculate_pdi` (lines 43–49):
`100 * (0.4*morans_norm + 0.3*min(1, enl/2000) + 0.3*(1 - spatial_hhi))`. -/
noncomputable def pdiCombine (moransNorm : ℝ) (hhi : ℚ) (enlV : ℝ) : ℝ :=
  100 * (0.4 * moransNorm + 0.3 * min 1 (enlV / 2000) + 0.3 * (1 - (hhi : ℝ)))

/-- Outcome of `calculate_pdi`: a score, or the propagated
`ZeroDivisionError` of the Moran step. -/
inductive PdiOutcome where
  | ok (v : ℝ)
  | err

/-- `calculate_pdi(df, threshold_km, h3_resolution)`: Moran's I on the
projected coordinates, HHI and ENL on the raw coordinates via the binning
function.  A NaN Moran statistic propagates through
`max(0, min(1, 1 - nan))`, which in Python evaluates to `max(0, 1) = 1`
(`min(1, nan)` keeps its first argument because `nan < 1` is false). -/
noncomputable def calculatePdi (proj : Pt → Pt) (h3cell : Pt → ℕ) (pts : List Pt)
    (thresholdKm : ℚ) : PdiOutcome :=
  match moransIRun (pts.map proj) thresholdKm with
  | MoransOutcome.zeroDivisionError => PdiOutcome.err
  | MoransOutcome.ok I =>
      PdiOutcome.ok (pdiCombine (moransNormOf I) (spatialHHI h3cell pts) (enlOf h3cell pts))
  | MoransOutcome.okNaN =>
      PdiOutcome.ok (pdiCombine 1 (spatialHHI h3cell pts) (enlOf h3cell pts))

/-- One input row of `calculate_gdi`; `none` fields model the NaN entries
`dropna` removes. -/
structure Row where
  lat : Option ℚ
  lon : Option ℚ
  country : Option ℕ
  org : Option ℕ

/-- A row `df.dropna(subset=["lat", "lon", "country", "org"])` keeps. -/
def rowComplete (r : Row) : Bool :=
  r.lat.isSome && r.lon.isSome && r.country.isSome && r.org.isSome

/-- `df.dropna(...)`: a new frame of the complete rows; the argument list is
untouched. -/
def dropna (rows : List Row) : List Row :=
  rows.filter rowComplete

def rowPt (r : Row) : Pt :=
  (r.lat.getD 0, r.lon.getD 0)

def rowCountry (r : Row) : ℕ :=
  r.country.getD 0

def rowOrg (r : Row) : ℕ :=
  r.org.getD 0

/-- The result dictionary of `calculate_gdi` (numeric fields the claims
refer to). -/
structure GdiResult where
  gdi : ℝ
  pdi : ℝ
  jdi : ℝ
  ihi : ℝ
  sizeScore : ℝ
  totalNodes : ℕ

/-- Outcome of `calculate_gdi`: a result, or the propagated error of the
PDI step. -/
inductive GdiOutcome where
  | ok (g : GdiResult)
  | err

/-- `calculate_gdi(df)` with the default weights `(0.35, 0.2, 0.1, 0.35)`,
threshold 500 km and H3 resolution abstracted into `h3cell`: drop the
incomplete rows, compute PDI (which can raise), then JDI, IHI and the size
bonus on the filtered frame. -/
noncomputable def calculateGdi (proj : Pt → Pt) (h3cell : Pt → ℕ)
    (rows : List Row) : GdiOutcome :=
  match calculatePdi proj h3cell ((dropna rows).map rowPt) 500 with
  | PdiOutcome.err => GdiOutcome.err
  | PdiOutcome.ok p =>
      GdiOutcome.ok
        { gdi := 0.35 * p + 0.2 * jdiScore ((dropna rows).map rowCountry)
            + 0.1 * ihiScore ((dropna rows).map rowOrg)
            + 0.35 * networkSizeScore (dropna rows).length
          pdi := p
          jdi := jdiScore ((dropna rows).map rowCountry)
          ihi := ihiScore ((dropna rows).map rowOrg)
          sizeScore := networkSizeScore (dropna rows).length
          totalNodes := (dropna rows).length }

/-- The reported `total_nodes` of a normal return. -/
def GdiOutcome.reportedNodes : GdiOutcome → Option ℕ
  | GdiOutcome.ok g => some g.totalNodes
  | GdiOutcome.err => none

/-! ### Helper lemmas for the claims -/

lemma stdRow_sums_to_one {coords : List Pt} {tm : ℚ} {i : Fin coords.length}
    (hnb : ∃ j, i ≠ j ∧ sqDist (coords.get i) (coords.get j) ≤ tm ^ 2) :
    ∑ j, Wstd coords tm i j = 1 := by
  obtain ⟨j0, hj0⟩ := hnb
  have hW1 : W coords tm i j0 = 1 := by
    unfold W
    exact if_pos hj0
  have hge : 1 ≤ rowSum coords tm i := by
    calc (1 : ℚ) = W coords tm i j0 := hW1.symm
      _ ≤ rowSum coords tm i :=
          Finset.single_le_sum (fun k _ => W_nonneg coords tm i k) (Finset.mem_univ j0)
  have hne : rowSum coords tm i ≠ 0 := by linarith
  have hG : rowSumG coords tm i = rowSum coords tm i := if_neg hne
  unfold Wstd
  rw [← Finset.sum_div, hG]
  unfold rowSum at hne ⊢
  exact div_self hne

lemma stdRow_zero_of_isolated {coords : List Pt} {tm : ℚ} {i : Fin coords.length}
    (hnb : ¬ ∃ j, i ≠ j ∧ sqDist (coords.get i) (coords.get j) ≤ tm ^ 2) :
    ∀ j, Wstd coords tm i j = 0 := by
  intro j
  have hW0 : W coords tm i j = 0 := by
    unfold W
    rw [if_neg]
    intro hcon
    exact hnb ⟨j, hcon⟩
  unfold Wstd
  rw [hW0, zero_div]

lemma moransIRun_singleton (t : ℚ) {coords : List Pt}
    (h1 : coords.length = 1) :
    moransIRun coords t = MoransOutcome.zeroDivisionError := by
  unfold moransIRun
  rw [if_pos h1]

lemma moransIRun_not_error {coords : List Pt} (t : ℚ)
    (h2 : 2 ≤ coords.length) :
    moransIRun coords t ≠ MoransOutcome.zeroDivisionError := by
  unfold moransIRun
  rw [if_neg (by omega)]
  split
  · split
    · simp
    · simp
  · simp

lemma localDensity_pos_of_large {coords : List Pt} (p : Pt)
    (h6 : 6 ≤ coords.length) :
    ∃ s : ℚ, sqDist5 coords p = some s ∧ 0 ≤ s ∧
      localDensity coords p = 1 / (Real.sqrt s + 1) ∧
      0 < localDensity coords p := by
  have hlen : 5 < (sortQ (sqDistList coords p)).length := by
    rw [sortQ_length]
    unfold sqDistList
    rw [List.length_map]
    omega
  refine ⟨(sortQ (sqDistList coords p)).get ⟨5, hlen⟩, ?_, ?_, ?_, ?_⟩
  · unfold sqDist5
    exact List.get?_eq_get hlen
  · have hmem : (sortQ (sqDistList coords p)).get ⟨5, hlen⟩ ∈ sqDistList coords p :=
      mem_sortQ (List.get_mem _ _ _)
    rcases List.mem_map.mp hmem with ⟨q, _, hq⟩
    rw [← hq]
    exact sqDist_nonneg p q
  · unfold localDensity sqDist5
    rw [List.get?_eq_get hlen]
    rfl
  · unfold localDensity sqDist5
    rw [List.get?_eq_get hlen]
    have hs : (0 : ℝ) ≤ Real.sqrt ((sortQ (sqDistList coords p)).get ⟨5, hlen⟩ : ℚ) :=
      Real.sqrt_nonneg _
    simp only [Option.elim]
    positivity

/-- C3: as stated, the claim is false for `_calculate_morans_i`: no
`InsufficientDataError` exists.  The amended behaviour: a singleton point
set raises `ZeroDivisionError` (at `E_I = -1/(n-1)`), and every point set
of at least two points returns normally — never an exception — whether or
not any pair lies within the distance threshold. -/
theorem claim_C3_morans_error_behavior :
    (∀ (coords : List Pt) (t : ℚ), coords.length = 1 →
      moransIRun coords t = MoransOutcome.zeroDivisionError) ∧
    (∀ (coords : List Pt) (t : ℚ), 2 ≤ coords.length →
      moransIRun coords t ≠ MoransOutcome.zeroDivisionError) :=
  ⟨fun _ t h1 => moransIRun_singleton t h1,
   fun _ t h2 => moransIRun_not_error t h2⟩

/-- C3 witness: a singleton raises `ZeroDivisionError`; a two-point set
never raises. -/
theorem claim_C3_witness :
    moransIRun [((0 : ℚ), (0 : ℚ))] 500 = MoransOutcome.zeroDivisionError ∧
    moransIRun [((0 : ℚ), (0 : ℚ)), ((1 : ℚ), (1 : ℚ))] 500 ≠
      MoransOutcome.zeroDivisionError :=
  ⟨claim_C3_morans_error_behavior.1 _ 500 (by norm_num),
   claim_C3_morans_error_behavior.2 _ 500 (by norm_num)⟩

/-- C3 counterexample: two points 10000 km apart with a 500 km threshold —
no neighbour pair exists, yet the computation returns `I = 0` normally
instead of raising `InsufficientDataError` as the claim requires. -/
theorem claim_C3_counterexample :
    (500 * 1000 : ℚ) ^ 2 <
      sqDist ((0 : ℚ), (0 : ℚ)) ((10000000 : ℚ), (0 : ℚ)) ∧
    moransIRun [((0 : ℚ), (0 : ℚ)), ((10000000 : ℚ), (0 : ℚ))] 500 =
      MoransOutcome.ok 0 := by
  constructor
  · unfold sqDist
    norm_num
  · exact moransIRun_of_small 500 (by norm_num) (by norm_num)

/-- C5: as stated, the claim is false because a singleton point set has a
constant attribute (zero variance) yet raises `ZeroDivisionError`.  Amended:
every point set of at least two points whose attribute values are all equal
returns `I = 0` as the defined fallback without raising. -/
theorem claim_C5_zero_variance_fallback :
    ∀ (coords : List Pt) (t : ℚ), 2 ≤ coords.length →
      (∀ p ∈ coords, ∀ q ∈ coords,
        localDensity coords p = localDensity coords q) →
      moransIRun coords t = MoransOutcome.ok 0 := by
  intro coords t h2 hconst
  have hne : coords ≠ [] := by
    intro hcon
    rw [hcon] at h2
    simp at h2
  obtain ⟨p0, hp0⟩ := List.exists_mem_of_ne_nil coords hne
  apply moransIRun_ok_zero t (by omega)
  exact moransDenominator_of_constant
    (d := localDensity coords p0) (fun p hp => hconst p hp p0 hp0)

/-- C5 witness: a two-point set has constant (zero) densities and the
computation returns `I = 0`. -/
theorem claim_C5_witness :
    moransIRun [((0 : ℚ), (0 : ℚ)), ((2 : ℚ), (0 : ℚ))] 500 =
      MoransOutcome.ok 0 := by
  apply claim_C5_zero_variance_fallback _ 500 (by norm_num)
  intro p hp q hq
  rw [localDensity_of_small p (by norm_num), localDensity_of_small q (by norm_num)]

/-- C5 counterexample: the singleton point set has all attribute values
equal (trivially zero variance), yet the call raises `ZeroDivisionError`
instead of returning `I = 0`. -/
theorem claim_C5_counterexample :
    (∀ p ∈ [((5 : ℚ), (5 : ℚ))], ∀ q ∈ [((5 : ℚ), (5 : ℚ))],
      localDensity [((5 : ℚ), (5 : ℚ))] p = localDensity [((5 : ℚ), (5 : ℚ))] q) ∧
    moransIRun [((5 : ℚ), (5 : ℚ))] 500 = MoransOutcome.zeroDivisionError := by
  constructor
  · intro p hp q hq
    rw [localDensity_of_small p (by norm_num), localDensity_of_small q (by norm_num)]
  · exact moransIRun_singleton 500 (by norm_num)

/-- C8: as stated, the claim is false: with five or fewer points the k=6
query pads with an infinite distance and the default attribute is 0, which
is not positive.  Amended: with at least six points the default attribute
equals `1/(d5 + 1)` for the finite squared 5th-nearest-neighbour distance
and is positive; with at most five points it is 0. -/
theorem claim_C8_default_attribute :
    (∀ (coords : List Pt) (p : Pt), 6 ≤ coords.length →
      ∃ s : ℚ, sqDist5 coords p = some s ∧ 0 ≤ s ∧
        localDensity coords p = 1 / (Real.sqrt s + 1) ∧
        0 < localDensity coords p) ∧
    (∀ (coords : List Pt) (p : Pt), coords.length ≤ 5 →
      localDensity coords p = 0) :=
  ⟨fun _ p h6 => localDensity_pos_of_large p h6,
   fun _ p h5 => localDensity_of_small p h5⟩

/-- C8 witness: on a six-point set the default attribute of the first point
is the positive value `1/(sqrt d5 + 1)`. -/
theorem claim_C8_witness :
    ∃ s : ℚ,
      sqDist5 [((0 : ℚ), (0 : ℚ)), ((1 : ℚ), (0 : ℚ)), ((2 : ℚ), (0 : ℚ)),
        ((3 : ℚ), (0 : ℚ)), ((4 : ℚ), (0 : ℚ)), ((5 : ℚ), (0 : ℚ))]
        ((0 : ℚ), (0 : ℚ)) = some s ∧ 0 ≤ s ∧
      localDensity [((0 : ℚ), (0 : ℚ)), ((1 : ℚ), (0 : ℚ)), ((2 : ℚ), (0 : ℚ)),
        ((3 : ℚ), (0 : ℚ)), ((4 : ℚ), (0 : ℚ)), ((5 : ℚ), (0 : ℚ))]
        ((0 : ℚ), (0 : ℚ)) = 1 / (Real.sqrt s + 1) ∧
      0 < localDensity [((0 : ℚ), (0 : ℚ)), ((1 : ℚ), (0 : ℚ)), ((2 : ℚ), (0 : ℚ)),
        ((3 : ℚ), (0 : ℚ)), ((4 : ℚ), (0 : ℚ)), ((5 : ℚ), (0 : ℚ))]
        ((0 : ℚ), (0 : ℚ)) :=
  claim_C8_default_attribute.1 _ _ (by norm_num)

/-- C8 counterexample: on a two-point set the default attribute is 0 —
finite but not positive, contradicting the claim. -/
theorem claim_C8_counterexample :
    localDensity [((0 : ℚ), (0 : ℚ)), ((3 : ℚ), (4 : ℚ))] ((0 : ℚ), (0 : ℚ)) = 0 ∧
    ¬ (0 < localDensity [((0 : ℚ), (0 : ℚ)), ((3 : ℚ), (4 : ℚ))] ((0 : ℚ), (0 : ℚ))) := by
  have h0 : localDensity [((0 : ℚ), (0 : ℚ)), ((3 : ℚ), (4 : ℚ))] ((0 : ℚ), (0 : ℚ)) = 0 :=
    localDensity_of_small _ (by norm_num)
  exact ⟨h0, by rw [h0]; exact lt_irrefl 0⟩

/-- C9: after row standardisation every row with at least one neighbour
within the threshold sums to 1, every isolated row is all zero, and the
guarded divisor is positive for every row of every input, so the division
never divides by zero. -/
theorem claim_C9_row_standardization :
    ∀ (coords : List Pt) (tm : ℚ) (i : Fin coords.length),
      (0 < rowSumG coords tm i) ∧
      ((∃ j, i ≠ j ∧ sqDist (coords.get i) (coords.get j) ≤ tm ^ 2) →
        ∑ j, Wstd coords tm i j = 1) ∧
      ((¬ ∃ j, i ≠ j ∧ sqDist (coords.get i) (coords.get j) ≤ tm ^ 2) →
        ∀ j, Wstd coords tm i j = 0) :=
  fun coords tm i =>
    ⟨rowSumG_pos coords tm i,
     fun hnb => stdRow_sums_to_one hnb,
     fun hnb => stdRow_zero_of_isolated hnb⟩

/-- C9 witness: two points 3 m apart with a 5 m band: the first row sums
to 1 after standardisation and its guarded divisor is positive. -/
theorem claim_C9_witness :
    (0 < rowSumG [((0 : ℚ), (0 : ℚ)), ((3 : ℚ), (0 : ℚ))] 5
      ⟨0, by norm_num⟩) ∧
    ∑ j, Wstd [((0 : ℚ), (0 : ℚ)), ((3 : ℚ), (0 : ℚ))] 5 ⟨0, by norm_num⟩ j = 1 := by
  have h := claim_C9_row_standardization
    [((0 : ℚ), (0 : ℚ)), ((3 : ℚ), (0 : ℚ))] 5 ⟨0, by norm_num⟩
  refine ⟨h.1, h.2.1 ⟨⟨1, by norm_num⟩, ?_, ?_⟩⟩
  · intro hcon
    have := congrArg Fin.val hcon
    simp at this
  · show sqDist ((0 : ℚ), (0 : ℚ)) ((3 : ℚ), (0 : ℚ)) ≤ 5 ^ 2
    unfold sqDist
    norm_num

lemma annRun_degenerate {coords : List Pt} (h1 : 1 ≤ coords.length)
    (harea : bboxArea coords = 0) :
    annNNIndexRun coords = AnnIndex.nan ∨ annNNIndexRun coords = AnnIndex.inf := by
  unfold annNNIndexRun
  by_cases hn : coords.length ≤ 1
  · rw [if_pos hn]
    right
    rfl
  · rw [if_neg hn, if_pos harea]
    by_cases hz : ∀ i, nnSqDist coords i = some 0
    · rw [if_pos hz]
      left
      rfl
    · rw [if_neg hz]
      right
      rfl

lemma annRun_nan_of_const {coords : List Pt} {c : Pt} (h2 : 2 ≤ coords.length)
    (hall : ∀ p ∈ coords, p = c) :
    annNNIndexRun coords = AnnIndex.nan := by
  have hne : coords ≠ [] := by
    intro hcon
    rw [hcon] at h2
    simp at h2
  unfold annNNIndexRun
  rw [if_neg (by omega), if_pos (bboxArea_of_const hne hall),
    if_pos (nnSqDist_of_const h2 hall)]

/-- C4: as stated, the claim is false: `average_nearest_neighbor` raises no
`DegenerateGeometryError` (no such class exists).  Amended: on any point set
with a zero-area bounding box the function returns silently with an
infinite or NaN nearest-neighbour index (NaN exactly in the `0.0/0.0` case
of fully coincident points, including every set of at least two identical
points), and a singleton likewise returns an infinite index instead of
being rejected. -/
theorem claim_C4_ann_degenerate_bbox :
    (∀ coords : List Pt, 1 ≤ coords.length → bboxArea coords = 0 →
      annNNIndexRun coords = AnnIndex.nan ∨ annNNIndexRun coords = AnnIndex.inf) ∧
    (∀ (coords : List Pt) (c : Pt), 2 ≤ coords.length → (∀ p ∈ coords, p = c) →
      annNNIndexRun coords = AnnIndex.nan) :=
  ⟨fun _ h1 harea => annRun_degenerate h1 harea,
   fun _ c h2 hall => annRun_nan_of_const h2 hall⟩

/-- C4 witness: three coincident points produce a NaN index, a silent
return rather than an exception. -/
theorem claim_C4_witness :
    annNNIndexRun [((3 : ℚ), (4 : ℚ)), ((3 : ℚ), (4 : ℚ)), ((3 : ℚ), (4 : ℚ))] =
      AnnIndex.nan := by
  apply claim_C4_ann_degenerate_bbox.2 _ ((3 : ℚ), (4 : ℚ)) (by norm_num)
  intro p hp
  rcases List.mem_cons.mp hp with h | hp
  · exact h
  rcases List.mem_cons.mp hp with h | hp
  · exact h
  rcases List.mem_cons.mp hp with h | hp
  · exact h
  · simp at hp

/-- C4 counterexample: two identical points — a zero-area bounding box —
make the function return a NaN index (the silent `0.0/0.0`), not raise
`DegenerateGeometryError` as the claim requires. -/
theorem claim_C4_counterexample :
    annNNIndexRun [((1 : ℚ), (2 : ℚ)), ((1 : ℚ), (2 : ℚ))] = AnnIndex.nan := by
  apply annRun_nan_of_const (by norm_num)
  intro p hp
  rcases List.mem_cons.mp hp with h | hp
  · exact h
  rcases List.mem_cons.mp hp with h | hp
  · exact h
  · simp at hp

lemma map_ne_nil_of_ne_nil {α β : Type} {l : List α} (f : α → β)
    (h : l ≠ []) : l.map f ≠ [] := by
  intro hcon
  exact h (List.map_eq_nil_iff.mp hcon)

lemma count_eq_length_of_const {cells : List ℕ} {c0 : ℕ}
    (h : ∀ x ∈ cells, x = c0) :
    ∀ c ∈ cells.toFinset, cells.count c = cells.length := by
  intro c hc
  have hc0 : c = c0 := h c (List.mem_toFinset.mp hc)
  rw [hc0]
  rw [List.count_eq_length]
  intro b hb
  rw [h b hb]

lemma numCells_of_const {cells : List ℕ} {c0 : ℕ} (hne : cells ≠ [])
    (h : ∀ x ∈ cells, x = c0) : numCells cells = 1 := by
  unfold numCells
  have : cells.toFinset = {c0} := by
    apply Finset.ext
    intro x
    simp only [List.mem_toFinset, Finset.mem_singleton]
    constructor
    · exact h x
    · intro hx
      obtain ⟨a, ha⟩ := List.exists_mem_of_ne_nil cells hne
      rw [hx, ← h a ha]
      exact ha
  rw [this]
  rfl

/-- C6: a single occupied cell gives HHI = 1 and ENL = 1; a uniform
distribution (every occupied cell holding the same count, in particular one
point per cell across N distinct cells) gives HHI = 1/N and ENL = N for
N the number of occupied cells. -/
theorem claim_C6_degenerate_cells :
    (∀ (h3cell : Pt → ℕ) (pts : List Pt) (c0 : ℕ), pts ≠ [] →
      (∀ p ∈ pts, h3cell p = c0) →
      spatialHHI h3cell pts = 1 ∧ enlOf h3cell pts = 1) ∧
    (∀ (h3cell : Pt → ℕ) (pts : List Pt) (m : ℕ), pts ≠ [] → 0 < m →
      (∀ c ∈ (pts.map h3cell).toFinset, (pts.map h3cell).count c = m) →
      spatialHHI h3cell pts = 1 / (numCells (pts.map h3cell) : ℚ) ∧
      enlOf h3cell pts = (numCells (pts.map h3cell) : ℝ)) := by
  constructor
  · intro h3cell pts c0 hne hall
    have hcne : pts.map h3cell ≠ [] := map_ne_nil_of_ne_nil h3cell hne
    have hconst : ∀ x ∈ pts.map h3cell, x = c0 := by
      intro x hx
      rcases List.mem_map.mp hx with ⟨p, hp, rfl⟩
      exact hall p hp
    have hu := count_eq_length_of_const hconst
    have hmpos : 0 < (pts.map h3cell).length := List.length_pos.mpr hcne
    have h1 := numCells_of_const hcne hconst
    constructor
    · unfold spatialHHI
      rw [hhiQ_of_uniform hcne hmpos hu, h1]
      norm_num
    · unfold enlOf
      rw [enl_of_uniform hcne hmpos hu, h1]
      norm_num
  · intro h3cell pts m hne hm hu
    have hcne : pts.map h3cell ≠ [] := map_ne_nil_of_ne_nil h3cell hne
    exact ⟨hhiQ_of_uniform hcne hm hu, enl_of_uniform hcne hm hu⟩

/-- C6 witness: two points in one cell give HHI = 1, ENL = 1; two points
in two distinct cells (one each) give HHI = 1/2, ENL = 2. -/
theorem claim_C6_witness :
    (spatialHHI (fun _ => 7) [((0 : ℚ), (0 : ℚ)), ((1 : ℚ), (1 : ℚ))] = 1 ∧
      enlOf (fun _ => 7) [((0 : ℚ), (0 : ℚ)), ((1 : ℚ), (1 : ℚ))] = 1) ∧
    (spatialHHI (fun p => if p.1 = 0 then 0 else 1)
        [((0 : ℚ), (0 : ℚ)), ((1 : ℚ), (1 : ℚ))] =
      1 / (numCells ([((0 : ℚ), (0 : ℚ)), ((1 : ℚ), (1 : ℚ))].map
        (fun p => if p.1 = 0 then 0 else 1)) : ℚ) ∧
      enlOf (fun p => if p.1 = 0 then 0 else 1)
        [((0 : ℚ), (0 : ℚ)), ((1 : ℚ), (1 : ℚ))] =
      (numCells ([((0 : ℚ), (0 : ℚ)), ((1 : ℚ), (1 : ℚ))].map
        (fun p => if p.1 = 0 then 0 else 1)) : ℝ)) := by
  constructor
  · exact claim_C6_degenerate_cells.1 (fun _ => 7) _ 7 (by simp)
      (fun p _ => rfl)
  · have hcells : ([((0 : ℚ), (0 : ℚ)), ((1 : ℚ), (1 : ℚ))].map
        (fun p => if p.1 = 0 then 0 else 1)) = [0, 1] := by
      norm_num
    apply claim_C6_degenerate_cells.2 (fun p => if p.1 = 0 then 0 else 1) _ 1
      (by simp) (by norm_num)
    rw [hcells]
    decide

/-- C7: for every non-empty point set the spatial HHI lies in
`[1/num_cells, 1]` and the ENL lies in `[1, num_cells]`, where `num_cells`
is the number of occupied cells. -/
theorem claim_C7_hhi_enl_bounds :
    ∀ (h3cell : Pt → ℕ) (pts : List Pt), pts ≠ [] →
      (1 / (numCells (pts.map h3cell) : ℚ) ≤ spatialHHI h3cell pts ∧
        spatialHHI h3cell pts ≤ 1) ∧
      (1 ≤ enlOf h3cell pts ∧
        enlOf h3cell pts ≤ (numCells (pts.map h3cell) : ℝ)) := by
  intro h3cell pts hne
  have hcne : pts.map h3cell ≠ [] := map_ne_nil_of_ne_nil h3cell hne
  exact ⟨⟨one_div_numCells_le_hhiQ hcne, hhiQ_le_one hcne⟩,
    ⟨one_le_enl hcne, enl_le_numCells hcne⟩⟩

/-- C7 witness: the bounds at a concrete three-point set binned by parity
of the numerator of the first coordinate. -/
theorem claim_C7_witness :
    (1 / (numCells ([((0 : ℚ), (0 : ℚ)), ((1 : ℚ), (0 : ℚ)), ((2 : ℚ), (0 : ℚ))].map
        (fun p => if p.1 ≤ 1 then 0 else 1)) : ℚ) ≤
      spatialHHI (fun p => if p.1 ≤ 1 then 0 else 1)
        [((0 : ℚ), (0 : ℚ)), ((1 : ℚ), (0 : ℚ)), ((2 : ℚ), (0 : ℚ))] ∧
      spatialHHI (fun p => if p.1 ≤ 1 then 0 else 1)
        [((0 : ℚ), (0 : ℚ)), ((1 : ℚ), (0 : ℚ)), ((2 : ℚ), (0 : ℚ))] ≤ 1) ∧
    (1 ≤ enlOf (fun p => if p.1 ≤ 1 then 0 else 1)
        [((0 : ℚ), (0 : ℚ)), ((1 : ℚ), (0 : ℚ)), ((2 : ℚ), (0 : ℚ))] ∧
      enlOf (fun p => if p.1 ≤ 1 then 0 else 1)
        [((0 : ℚ), (0 : ℚ)), ((1 : ℚ), (0 : ℚ)), ((2 : ℚ), (0 : ℚ))] ≤
      (numCells ([((0 : ℚ), (0 : ℚ)), ((1 : ℚ), (0 : ℚ)), ((2 : ℚ), (0 : ℚ))].map
        (fun p => if p.1 ≤ 1 then 0 else 1)) : ℝ)) :=
  claim_C7_hhi_enl_bounds _ _ (by simp)

/-- C2: monotonicity of the composites.  PDI (the blend of lines 43–49) is
non-decreasing in ENL when the Moran and HHI components are held fixed; JDI
is non-increasing in the top-country share when the number of countries and
the country HHI (hence also the diversity bonus) are held fixed. -/
theorem claim_C2_monotonicity :
    (∀ (I : ℝ) (hhi : ℚ) (e1 e2 : ℝ), e1 ≤ e2 →
      pdiCombine (moransNormOf I) hhi e1 ≤ pdiCombine (moransNormOf I) hhi e2) ∧
    (∀ c1 c2 : List ℕ, numCells c1 = numCells c2 → hhiQ c1 = hhiQ c2 →
      topShare c1 ≤ topShare c2 → jdiScore c2 ≤ jdiScore c1) := by
  constructor
  · intro I hhi e1 e2 he
    have hmin : min 1 (e1 / 2000) ≤ min 1 (e2 / 2000) :=
      min_le_min le_rfl (by linarith)
    unfold pdiCombine
    linarith
  · intro c1 c2 hk hh ht
    have hts : ((topShare c1 : ℚ) : ℝ) ≤ ((topShare c2 : ℚ) : ℝ) := by
      exact_mod_cast ht
    have hmax : max 0 (((topShare c1 : ℚ) : ℝ) - 0.15) ≤
        max 0 (((topShare c2 : ℚ) : ℝ) - 0.15) :=
      max_le_max le_rfl (by linarith)
    unfold jdiScore
    rw [hk, hh]
    have hpen : max 0 ((((topShare c1 : ℚ) : ℝ) - 0.15) / 0.35) ≤
        max 0 ((((topShare c2 : ℚ) : ℝ) - 0.15) / 0.35) :=
      max_le_max le_rfl ((div_le_div_iff_of_pos_right (by norm_num)).mpr (by linarith))
    linarith

/-- C2 witness: the PDI blend at ENL 1 versus 2 and the JDI comparison on
one concrete distribution against itself. -/
theorem claim_C2_witness :
    pdiCombine (moransNormOf 0) 0 1 ≤ pdiCombine (moransNormOf 0) 0 2 ∧
    jdiScore [0, 1] ≤ jdiScore [0, 1] :=
  ⟨claim_C2_monotonicity.1 0 0 1 2 (by norm_num),
   claim_C2_monotonicity.2 [0, 1] [0, 1] rfl rfl le_rfl⟩

/-! Bounds on the composite scores. -/

lemma moransNormOf_nonneg (I : ℝ) : 0 ≤ moransNormOf I :=
  le_max_left 0 _

lemma moransNormOf_le_one (I : ℝ) : moransNormOf I ≤ 1 :=
  max_le (by norm_num) (min_le_left _ _)

lemma pdiCombine_bounds {m : ℝ} {hhi : ℚ} {e : ℝ} (hm0 : 0 ≤ m) (hm1 : m ≤ 1)
    (hh0 : 0 ≤ hhi) (hh1 : hhi ≤ 1) (he : 0 ≤ e) :
    0 ≤ pdiCombine m hhi e ∧ pdiCombine m hhi e ≤ 100 := by
  have hmin0 : 0 ≤ min 1 (e / 2000) := le_min (by norm_num) (by positivity)
  have hmin1 : min 1 (e / 2000) ≤ 1 := min_le_left _ _
  have hc0 : (0 : ℝ) ≤ ((hhi : ℚ) : ℝ) := by exact_mod_cast hh0
  have hc1 : ((hhi : ℚ) : ℝ) ≤ 1 := by exact_mod_cast hh1
  unfold pdiCombine
  constructor <;> linarith

lemma calculatePdi_ok_bounds (proj : Pt → Pt) (h3cell : Pt → ℕ)
    {pts : List Pt} (t : ℚ) {v : ℝ} (hne : pts ≠ [])
    (hok : calculatePdi proj h3cell pts t = PdiOutcome.ok v) :
    0 ≤ v ∧ v ≤ 100 := by
  have hcne : pts.map h3cell ≠ [] := map_ne_nil_of_ne_nil h3cell hne
  unfold calculatePdi at hok
  cases hmi : moransIRun (pts.map proj) t with
  | ok I =>
      rw [hmi] at hok
      simp only [PdiOutcome.ok.injEq] at hok
      rw [← hok]
      exact pdiCombine_bounds (moransNormOf_nonneg I) (moransNormOf_le_one I)
        (hhiQ_nonneg _) (hhiQ_le_one hcne) (enl_pos _).le
  | okNaN =>
      rw [hmi] at hok
      simp only [PdiOutcome.ok.injEq] at hok
      rw [← hok]
      exact pdiCombine_bounds (by norm_num) (by norm_num)
        (hhiQ_nonneg _) (hhiQ_le_one hcne) (enl_pos _).le
  | zeroDivisionError =>
      rw [hmi] at hok
      simp at hok

lemma topShare_nonneg (l : List ℕ) : 0 ≤ topShare l := by
  unfold topShare
  positivity

lemma topShare_le_one {l : List ℕ} (h : l ≠ []) : topShare l ≤ 1 := by
  unfold topShare
  rw [div_le_one (length_pos_of_ne_nil h)]
  have : topCount l ≤ l.length := by
    unfold topCount
    exact Finset.sup_le fun c _ => List.count_le_length c l
  exact_mod_cast this

lemma one_le_numCells_cast {l : List ℕ} (h : l ≠ []) :
    (1 : ℝ) ≤ (numCells l : ℝ) := by
  exact_mod_cast numCells_pos h

lemma jdiScore_bounds {l : List ℕ} (h : l ≠ []) :
    -85 ≤ jdiScore l ∧ jdiScore l ≤ 100 := by
  have hh0 : (0 : ℝ) ≤ ((hhiQ l : ℚ) : ℝ) := by exact_mod_cast hhiQ_nonneg l
  have hh1 : ((hhiQ l : ℚ) : ℝ) ≤ 1 := by exact_mod_cast hhiQ_le_one h
  have hb0 : 0 ≤ min 1 (Real.logb 10 (numCells l) / 2) :=
    le_min (by norm_num)
      (div_nonneg (Real.logb_nonneg (by norm_num) (one_le_numCells_cast h)) (by norm_num))
  have hb1 : min 1 (Real.logb 10 (numCells l) / 2) ≤ 1 := min_le_left _ _
  have ht0 : (0 : ℝ) ≤ max 0 ((((topShare l : ℚ) : ℝ) - 0.15) / 0.35) :=
    le_max_left 0 _
  have htc : ((topShare l : ℚ) : ℝ) ≤ 1 := by exact_mod_cast topShare_le_one h
  have ht1 : max 0 ((((topShare l : ℚ) : ℝ) - 0.15) / 0.35) ≤ 17 / 7 := by
    apply max_le (by norm_num)
    rw [div_le_iff₀ (by norm_num : (0 : ℝ) < 0.35)]
    nlinarith
  unfold jdiScore
  constructor <;> linarith

lemma ihiScore_bounds {l : List ℕ} (h : l ≠ []) :
    -(3395 / 17) ≤ ihiScore l ∧ ihiScore l ≤ 100 := by
  have hh0 : (0 : ℝ) ≤ ((hhiQ l : ℚ) : ℝ) := by exact_mod_cast hhiQ_nonneg l
  have hh1 : ((hhiQ l : ℚ) : ℝ) ≤ 1 := by exact_mod_cast hhiQ_le_one h
  have hb0 : 0 ≤ min 1 (Real.logb 10 (numCells l) / 3.5) :=
    le_min (by norm_num)
      (div_nonneg (Real.logb_nonneg (by norm_num) (one_le_numCells_cast h)) (by norm_num))
  have hb1 : min 1 (Real.logb 10 (numCells l) / 3.5) ≤ 1 := min_le_left _ _
  have ht0 : (0 : ℝ) ≤ max 0 ((((topShare l : ℚ) : ℝ) - 0.03) / 0.17) :=
    le_max_left 0 _
  have htc : ((topShare l : ℚ) : ℝ) ≤ 1 := by exact_mod_cast topShare_le_one h
  have ht1 : max 0 ((((topShare l : ℚ) : ℝ) - 0.03) / 0.17) ≤ 97 / 17 := by
    apply max_le (by norm_num)
    rw [div_le_iff₀ (by norm_num : (0 : ℝ) < 0.17)]
    nlinarith
  unfold ihiScore
  constructor <;> linarith

lemma networkSizeScore_bounds (n : ℕ) :
    0 ≤ networkSizeScore n ∧ networkSizeScore n ≤ 100 := by
  have h0 : 0 ≤ min 1 (Real.sqrt ((n : ℝ) / 50000)) :=
    le_min (by norm_num) (Real.sqrt_nonneg _)
  have h1 : min 1 (Real.sqrt ((n : ℝ) / 50000)) ≤ 1 := min_le_left _ _
  unfold networkSizeScore
  constructor <;> linarith

lemma calculateGdi_ok_bounds (proj : Pt → Pt) (h3cell : Pt → ℕ)
    {rows : List Row} {g : GdiResult}
    (hok : calculateGdi proj h3cell rows = GdiOutcome.ok g)
    (hne : dropna rows ≠ []) :
    -(1257 / 34) ≤ g.gdi ∧ g.gdi ≤ 100 := by
  unfold calculateGdi at hok
  cases hp : calculatePdi proj h3cell ((dropna rows).map rowPt) 500 with
  | err =>
      rw [hp] at hok
      simp at hok
  | ok p =>
      rw [hp] at hok
      simp only [GdiOutcome.ok.injEq] at hok
      have hpts : (dropna rows).map rowPt ≠ [] := map_ne_nil_of_ne_nil rowPt hne
      have hpb := calculatePdi_ok_bounds proj h3cell 500 hpts hp
      have hjb := jdiScore_bounds (map_ne_nil_of_ne_nil rowCountry hne)
      have hib := ihiScore_bounds (map_ne_nil_of_ne_nil rowOrg hne)
      have hsb := networkSizeScore_bounds (dropna rows).length
      rw [← hok]
      constructor <;> (simp only; linarith [hpb.1, hpb.2, hjb.1, hjb.2,
        hib.1, hib.2, hsb.1, hsb.2])

/-- C1: as stated, the claim is false: the JDI/IHI concentration penalty is
clipped only from below (at 0), not from above, so those indices can be
negative.  Amended: PDI and the network-size bonus lie in [0, 100] for every
non-empty input, JDI lies in [-85, 100], IHI in [-3395/17, 100] (both reach
100-bounded values only from above; the negative lower ends are attained as
the top share approaches 1), and GDI — the default-weight blend of the
four — lies in [-1257/34, 100]. -/
theorem claim_C1_composite_bounds :
    (∀ (proj : Pt → Pt) (h3cell : Pt → ℕ) (pts : List Pt) (t : ℚ) (v : ℝ),
      pts ≠ [] → calculatePdi proj h3cell pts t = PdiOutcome.ok v →
      0 ≤ v ∧ v ≤ 100) ∧
    (∀ countries : List ℕ, countries ≠ [] →
      -85 ≤ jdiScore countries ∧ jdiScore countries ≤ 100) ∧
    (∀ orgs : List ℕ, orgs ≠ [] →
      -(3395 / 17) ≤ ihiScore orgs ∧ ihiScore orgs ≤ 100) ∧
    (∀ n : ℕ, 0 ≤ networkSizeScore n ∧ networkSizeScore n ≤ 100) ∧
    (∀ (proj : Pt → Pt) (h3cell : Pt → ℕ) (rows : List Row) (g : GdiResult),
      calculateGdi proj h3cell rows = GdiOutcome.ok g → dropna rows ≠ [] →
      -(1257 / 34) ≤ g.gdi ∧ g.gdi ≤ 100) :=
  ⟨fun proj h3cell _ t _ hne hok => calculatePdi_ok_bounds proj h3cell t hne hok,
   fun _ h => jdiScore_bounds h,
   fun _ h => ihiScore_bounds h,
   fun n => networkSizeScore_bounds n,
   fun proj h3cell _ _ hok hne => calculateGdi_ok_bounds proj h3cell hok hne⟩

lemma calculatePdi_ok_of_small (proj : Pt → Pt) (h3cell : Pt → ℕ)
    {pts : List Pt} (t : ℚ) (h2 : 2 ≤ pts.length) (h5 : pts.length ≤ 5) :
    calculatePdi proj h3cell pts t =
      PdiOutcome.ok (pdiCombine (moransNormOf 0) (spatialHHI h3cell pts)
        (enlOf h3cell pts)) := by
  unfold calculatePdi
  rw [moransIRun_of_small t (by simpa using h2) (by simpa using h5)]

lemma calculateGdi_ok_of_small (proj : Pt → Pt) (h3cell : Pt → ℕ)
    {rows : List Row} (h2 : 2 ≤ (dropna rows).length)
    (h5 : (dropna rows).length ≤ 5) :
    calculateGdi proj h3cell rows = GdiOutcome.ok
      { gdi := 0.35 * pdiCombine (moransNormOf 0)
            (spatialHHI h3cell ((dropna rows).map rowPt))
            (enlOf h3cell ((dropna rows).map rowPt))
          + 0.2 * jdiScore ((dropna rows).map rowCountry)
          + 0.1 * ihiScore ((dropna rows).map rowOrg)
          + 0.35 * networkSizeScore (dropna rows).length
        pdi := pdiCombine (moransNormOf 0)
          (spatialHHI h3cell ((dropna rows).map rowPt))
          (enlOf h3cell ((dropna rows).map rowPt))
        jdi := jdiScore ((dropna rows).map rowCountry)
        ihi := ihiScore ((dropna rows).map rowOrg)
        sizeScore := networkSizeScore (dropna rows).length
        totalNodes := (dropna rows).length } := by
  unfold calculateGdi
  rw [calculatePdi_ok_of_small proj h3cell 500 (by simpa using h2)
    (by simpa using h5)]

/-- C1 witness: every bound applied at concrete inputs — a two-point frame
for PDI and GDI, singleton category lists for JDI/IHI, node count 3 for the
size bonus. -/
theorem claim_C1_witness :
    (0 ≤ pdiCombine (moransNormOf 0)
        (spatialHHI (fun _ => 0) [((0 : ℚ), (0 : ℚ)), ((1 : ℚ), (0 : ℚ))])
        (enlOf (fun _ => 0) [((0 : ℚ), (0 : ℚ)), ((1 : ℚ), (0 : ℚ))]) ∧
      pdiCombine (moransNormOf 0)
        (spatialHHI (fun _ => 0) [((0 : ℚ), (0 : ℚ)), ((1 : ℚ), (0 : ℚ))])
        (enlOf (fun _ => 0) [((0 : ℚ), (0 : ℚ)), ((1 : ℚ), (0 : ℚ))]) ≤ 100) ∧
    (-85 ≤ jdiScore [0] ∧ jdiScore [0] ≤ 100) ∧
    (-(3395 / 17) ≤ ihiScore [1] ∧ ihiScore [1] ≤ 100) ∧
    (0 ≤ networkSizeScore 3 ∧ networkSizeScore 3 ≤ 100) ∧
    (∃ g : GdiResult,
      calculateGdi id (fun _ => 0)
        [⟨some 0, some 0, some 0, some 0⟩, ⟨some 1, some 0, some 0, some 0⟩] =
        GdiOutcome.ok g ∧ -(1257 / 34) ≤ g.gdi ∧ g.gdi ≤ 100) := by
  have hdrop : dropna [(⟨some 0, some 0, some 0, some 0⟩ : Row),
      ⟨some 1, some 0, some 0, some 0⟩] =
      [⟨some 0, some 0, some 0, some 0⟩, ⟨some 1, some 0, some 0, some 0⟩] := rfl
  refine ⟨?_, ?_, ?_, ?_, ?_⟩
  · exact claim_C1_composite_bounds.1 id (fun _ => 0) _ 500 _ (by simp)
      (calculatePdi_ok_of_small id (fun _ => 0) 500 (by norm_num) (by norm_num))
  · exact claim_C1_composite_bounds.2.1 [0] (by simp)
  · exact claim_C1_composite_bounds.2.2.1 [1] (by simp)
  · exact claim_C1_composite_bounds.2.2.2.1 3
  · refine ⟨_, calculateGdi_ok_of_small id (fun _ => 0)
      (by rw [hdrop]; norm_num) (by rw [hdrop]; norm_num), ?_⟩
    exact claim_C1_composite_bounds.2.2.2.2 id (fun _ => 0) _ _
      (calculateGdi_ok_of_small id (fun _ => 0) (by rw [hdrop]; norm_num)
        (by rw [hdrop]; norm_num))
      (by rw [hdrop]; simp)

/-- C1 counterexample: a single node in a single country — the top-country
share is 1, the unclipped penalty is `0.35 * (0.85/0.35) = 0.85`, and
`calculate_jdi` returns -85, outside [0, 100]. -/
theorem claim_C1_counterexample : jdiScore [0] = -85 ∧ jdiScore [0] < 0 := by
  have h1 : hhiQ [0] = 1 := by
    unfold hhiQ shareQ
    simp
  have h2 : numCells [0] = 1 := by
    unfold numCells
    simp
  have h3 : topShare [0] = 1 := by
    unfold topShare topCount
    simp
  have hval : jdiScore [0] = -85 := by
    unfold jdiScore
    rw [h1, h2, h3]
    norm_num [Real.logb_one]
  exact ⟨hval, by rw [hval]; norm_num⟩

lemma dropna_idem (rows : List Row) : dropna (dropna rows) = dropna rows := by
  unfold dropna
  rw [List.filter_filter]
  congr 1
  funext r
  exact Bool.and_self _

/-- C10: `calculate_gdi` first drops every row missing lat, lon, country or
org and computes everything — PDI, JDI, IHI, the size bonus and the
reported `total_nodes` — from the remaining rows only: its result on any
frame equals its result on the already-filtered frame, and every normal
return reports exactly the filtered row count.  The filtering builds a new
list; the argument is never mutated (the embedding is a pure function of
the input list). -/
theorem claim_C10_dropna_isolation :
    (∀ (proj : Pt → Pt) (h3cell : Pt → ℕ) (rows : List Row),
      calculateGdi proj h3cell rows = calculateGdi proj h3cell (dropna rows)) ∧
    (∀ (proj : Pt → Pt) (h3cell : Pt → ℕ) (rows : List Row),
      calculateGdi proj h3cell rows ≠ GdiOutcome.err →
      (calculateGdi proj h3cell rows).reportedNodes =
        some ((dropna rows).length)) := by
  constructor
  · intro proj h3cell rows
    unfold calculateGdi
    rw [dropna_idem]
  · intro proj h3cell rows hne
    unfold calculateGdi at hne ⊢
    cases hp : calculatePdi proj h3cell ((dropna rows).map rowPt) 500 with
    | err =>
        rw [hp] at hne
        exact absurd rfl hne
    | ok p =>
        rfl

/-- C10 witness: a three-row frame whose middle row misses `lat` behaves
exactly like its two-row filtered frame and reports `total_nodes = 2`. -/
theorem claim_C10_witness :
    (calculateGdi id (fun _ => 0)
        [⟨some 0, some 0, some 0, some 0⟩, ⟨none, some 0, some 0, some 0⟩,
          ⟨some 1, some 0, some 0, some 0⟩] =
      calculateGdi id (fun _ => 0)
        (dropna [⟨some 0, some 0, some 0, some 0⟩, ⟨none, some 0, some 0, some 0⟩,
          ⟨some 1, some 0, some 0, some 0⟩])) ∧
    (calculateGdi id (fun _ => 0)
        [⟨some 0, some 0, some 0, some 0⟩, ⟨none, some 0, some 0, some 0⟩,
          ⟨some 1, some 0, some 0, some 0⟩]).reportedNodes = some 2 := by
  have hdrop : dropna [(⟨some 0, some 0, some 0, some 0⟩ : Row),
      ⟨none, some 0, some 0, some 0⟩, ⟨some 1, some 0, some 0, some 0⟩] =
      [⟨some 0, some 0, some 0, some 0⟩, ⟨some 1, some 0, some 0, some 0⟩] := rfl
  constructor
  · exact claim_C10_dropna_isolation.1 id (fun _ => 0) _
  · have h := claim_C10_dropna_isolation.2 id (fun _ => 0)
      [⟨some 0, some 0, some 0, some 0⟩, ⟨none, some 0, some 0, some 0⟩,
        ⟨some 1, some 0, some 0, some 0⟩]
      (by
        rw [calculateGdi_ok_of_small id (fun _ => 0)
          (by rw [hdrop]; norm_num) (by rw [hdrop]; norm_num)]
        simp)
    rw [h, hdrop]
    norm_num

end GeoBeat
